import Mathlib

/-!
Verification of the ccap command-line argument parsing library (src/ccap.h).

The embedding below translates the C++ source into Lean:

* `Argument` mirrors class `Argument` (ccap.h lines 17-49): a declarative
  descriptor plus the mutable parse-result slot (`value`, `is_given`).
  The builder methods keep the source's names (`WithName`, `SetShort`,
  `SetLong`, `SetValue`, `GetValue`, `ExpectsValue`, `Required`, `SetGiven`).
* `scanAux` mirrors the scanning loop of `Args::Parse` (lines 206-215)
  together with `Args::ReadLongArg` (228-257) and `Args::ReadShortArg`
  (259-287).  The loop index `i` of the source becomes structural recursion
  over the token-list suffix: the source only ever reads `raw_args_[i]`
  and `raw_args_[i+1]`, which here are the head of the suffix and
  `rest.head?`.  The source's unchecked read `raw_args_[raw_arg_index + 1]`
  in `ReadLongArg` (line 246) is an out-of-bounds access when the option is
  the last token; the embedding surfaces that branch as `ScanResult.oobFault`.
* `classify` captures the token dispatch: `starts_with("--")` /
  `starts_with("-")` in `Parse` plus the guard prefixes of the two readers
  (empty long name, the reserved `help` long name, the NUL short character
  produced by `raw_args_[i][1]` on a one-character token, and the reserved
  `h` short character).  `ShowHelp` (line 313-316) calls `exit(0)` and never
  returns, hence `ScanResult.help` is terminal.
* `Parse` adds the required-argument validation of lines 219-223; `Terminate`
  (lines 319-329) never returns under either policy, so the first required
  argument with an absent value is the only one reported
  (`ParseResult.terminated`).
* Strings are compared and sliced at character level (`strStartsWith`,
  `strDrop`, `charAt1`), matching the byte-level C++ operations on ASCII
  argument tokens.
-/

/-- One declared CLI argument: descriptor fields plus the mutable parse
result slot, mirroring the private fields of class `Argument`. -/
structure Argument where
  name : String
  long : String
  short : Char
  value : String
  required : Bool
  expects_value : Bool
  is_option : Bool
  is_given : Bool
deriving DecidableEq, Repr

/-- `Argument::WithName` / the constructor: all fields default except `name`
(`long_` empty, `short_ = 0`, `value_` empty, flags as in lines 45-48). -/
def Argument.WithName (n : String) : Argument :=
  ⟨n, "", Char.ofNat 0, "", false, false, true, false⟩

/-- `Argument::SetShort` (line 111). -/
def Argument.SetShort (a : Argument) (c : Char) : Argument := {a with short := c}

/-- `Argument::SetLong` (line 118). -/
def Argument.SetLong (a : Argument) (l : String) : Argument := {a with long := l}

/-- `Argument::SetValue` (line 123): overwrites unconditionally. -/
def Argument.SetValue (a : Argument) (v : String) : Argument := {a with value := v}

/-- `Argument::GetValue` (line 128): the stored string iff non-empty. -/
def Argument.GetValue (a : Argument) : Option String :=
  if 0 < a.value.data.length then some a.value else none

/-- `Argument::ExpectsValue` (line 136): sets the value expectation and
simultaneously clears `is_option_`. -/
def Argument.ExpectsValue (a : Argument) : Argument :=
  {a with expects_value := true, is_option := false}

/-- `Argument::Required` (line 148). -/
def Argument.Required (a : Argument) : Argument := {a with required := true}

/-- `Argument::SetGiven` (line 159). -/
def Argument.SetGiven (a : Argument) (b : Bool) : Argument := {a with is_given := b}

/-- Character-level prefix test embedding `std::string::starts_with`. -/
def strStartsWith (s p : String) : Bool := List.isPrefixOf p.data s.data

/-- Character-level suffix embedding `std::string::substr(n)`. -/
def strDrop (s : String) (n : Nat) : String := String.mk (s.data.drop n)

/-- Character count of a string, embedding `std::string::length`. -/
def strLen (s : String) : Nat := s.data.length

/-- The character the source reads as `raw_args_[i][1]`: the second
character, or NUL when the token has length one (`std::string::operator[]`
at `pos == size()` yields the null character). -/
def charAt1 (s : String) : Char := (s.data[1]?).getD (Char.ofNat 0)

/-- How the scan dispatches on one raw token. -/
inductive TokKind where
  | skip : TokKind
  | help : TokKind
  | long : String → TokKind
  | short : Char → TokKind
deriving DecidableEq, Repr

/-- Token dispatch of `Args::Parse` (lines 208-214) combined with the guard
prefixes of `ReadLongArg` (empty name skip at line 232, reserved `help` at
line 236) and `ReadShortArg` (NUL skip at line 262, reserved `h` at
line 266). -/
def classify (t : String) : TokKind :=
  if strStartsWith t "--" then
    if strLen (strDrop t 2) = 0 then TokKind.skip
    else if strDrop t 2 = "help" then TokKind.help
    else TokKind.long (strDrop t 2)
  else if strStartsWith t "-" then
    if charAt1 t = Char.ofNat 0 then TokKind.skip
    else if charAt1 t = 'h' then TokKind.help
    else TokKind.short (charAt1 t)
  else TokKind.skip

/-- The matching loop of `Args::ReadLongArg` (lines 241-256): every
registered argument whose long form equals `name` is processed (the loop
has no break).  `nv` is `raw_args_[raw_arg_index + 1]` when it exists;
when a matching argument expects a value and there is no next token the
source reads past the end of `raw_args_`, which this embedding returns as
`none` (the fatal out-of-bounds fault). -/
def updateArgsLong (name : String) (nv : Option String) : List Argument → Option (List Argument)
  | [] => some []
  | a :: rest =>
    if a.long = name then
      if a.expects_value then
        match nv with
        | none => none
        | some v =>
          (updateArgsLong name nv rest).map
            (fun r => (if (a.SetValue v).is_option then (a.SetValue v).SetGiven true
                       else a.SetValue v) :: r)
      else
        (updateArgsLong name nv rest).map
          (fun r => (if a.is_option then a.SetGiven true else a) :: r)
    else (updateArgsLong name nv rest).map (fun r => a :: r)

/-- The matching loop of `Args::ReadShortArg` (lines 270-286): like the
long-form loop, but before consuming the next token it bounds-checks
`raw_args_.size() <= raw_arg_index + 1` (line 274) and, when out of range,
returns from the whole function — aborting the loop with everything from
the matched argument on left unchanged. -/
def updateArgsShort (c : Char) (nv : Option String) : List Argument → List Argument
  | [] => []
  | a :: rest =>
    if a.short = c then
      if a.expects_value then
        match nv with
        | none => a :: rest
        | some v =>
          (if (a.SetValue v).is_option then (a.SetValue v).SetGiven true
           else a.SetValue v) :: updateArgsShort c nv rest
      else
        (if a.is_option then a.SetGiven true else a) :: updateArgsShort c nv rest
    else a :: updateArgsShort c nv rest

/-- Outcome of the scanning loop: normal completion with the updated
arguments, the terminal help display, or the fatal out-of-bounds read. -/
inductive ScanResult where
  | ok : List Argument → ScanResult
  | help : ScanResult
  | oobFault : ScanResult
deriving DecidableEq, Repr

/-- The scanning loop of `Args::Parse` (lines 207-215) over the remaining
token suffix.  The index advances by exactly one per iteration, so a token
consumed as a value is re-examined as the head of the next suffix. -/
def scanAux : List String → List Argument → ScanResult
  | [], args => ScanResult.ok args
  | t :: rest, args =>
    match classify t with
    | TokKind.skip => scanAux rest args
    | TokKind.help => ScanResult.help
    | TokKind.long x =>
      match updateArgsLong x rest.head? args with
      | none => ScanResult.oobFault
      | some args1 => scanAux rest args1
    | TokKind.short c => scanAux rest (updateArgsShort c rest.head? args)

/-- `arg.IsRequired() && !arg.GetValue().has_value()` (line 220). -/
def missingRequired (a : Argument) : Bool := a.required && (Argument.GetValue a).isNone

/-- Outcome of a full `Args::Parse` call.  `terminated` carries the argument
passed to the (never-returning) `Terminate` call. -/
inductive ParseResult where
  | ok : List Argument → ParseResult
  | help : ParseResult
  | oobFault : ParseResult
  | terminated : Argument → ParseResult
deriving DecidableEq, Repr

/-- `Args::Parse` (lines 206-226): run the scan, then the required-argument
validation loop (lines 219-223).  `Terminate` never returns, so the first
required argument with an absent value ends the call. -/
def Parse (tokens : List String) (args : List Argument) : ParseResult :=
  match scanAux tokens args with
  | ScanResult.help => ParseResult.help
  | ScanResult.oobFault => ParseResult.oobFault
  | ScanResult.ok args1 =>
    match args1.find? missingRequired with
    | some a => ParseResult.terminated a
    | none => ParseResult.ok args1

/-- The arguments passed to `Terminate` during a `Parse` call: at most one,
because `Terminate` ends the process or throws (lines 319-329). -/
def terminateCalls : ParseResult → List Argument
  | ParseResult.terminated a => [a]
  | _ => []

/-- `Args::IsGiven` (lines 195-203): linear scan, answering at the first
argument whose name matches. -/
def argsIsGiven (n : String) : List Argument → Bool
  | [] => false
  | a :: rest => if a.name = n then a.is_option && a.is_given else argsIsGiven n rest

/-- `Args::Get` (lines 183-192): linear scan, `GetValue` of the first
argument whose name matches. -/
def argsGet (n : String) : List Argument → Option String
  | [] => none
  | a :: rest => if a.name = n then Argument.GetValue a else argsGet n rest

/-- The two termination policies (`TerminationType`, line 15). -/
inductive TerminationType where
  | exit : TerminationType
  | exception : TerminationType
deriving DecidableEq, Repr

/-- The externally observable effect of `Args::Terminate`. -/
inductive TerminateEffect where
  | exitWithMessage : String → TerminateEffect
  | throwString : String → TerminateEffect
deriving DecidableEq, Repr

/-- `Args::Terminate` (lines 319-329): under `Exit`, print a diagnostic
naming the argument and exit with failure; under `Exception`, execute
`throw "Exception"` — a fixed literal string. -/
def Terminate (policy : TerminationType) (arg : Argument) : TerminateEffect :=
  match policy with
  | TerminationType.exit =>
    TerminateEffect.exitWithMessage
      ("Error: Missing required value for argument \x27" ++ arg.name ++ "\x27")
  | TerminationType.exception => TerminateEffect.throwString "Exception"

/-- The update `Args::ReadLongArg` performs on one registered argument when
the matched token has a following token `v`: set the value when the argument
expects one (lines 245-248), then set the given flag when it is an option
(lines 252-254); arguments whose long form differs are untouched. -/
def longApply (x v : String) (a : Argument) : Argument :=
  if a.long = x then
    (if (if a.expects_value then a.SetValue v else a).is_option then
      (if a.expects_value then a.SetValue v else a).SetGiven true
     else (if a.expects_value then a.SetValue v else a))
  else a

/-- The descriptor fields the scan reads but never writes. -/
structure ArgSig where
  long : String
  short : Char
  expects_value : Bool
  is_option : Bool
deriving DecidableEq, Repr

/-- Projection of an argument to its scan-immutable descriptor fields. -/
def immut (a : Argument) : ArgSig := ⟨a.long, a.short, a.expects_value, a.is_option⟩

/-- A pending overwrite of the two mutable fields: an optional new value and
an optional new given flag. -/
abbrev Write := Option String × Option Bool

/-- Apply a pending overwrite to an argument. -/
def applyWrite (w : Write) (a : Argument) : Argument :=
  {a with value := w.1.getD a.value, is_given := w.2.getD a.is_given}

/-- The empty overwrite. -/
def wNone : Write := (none, none)

/-- Overwrite composition: the later write wins on each field. -/
def combineW (late early : Write) : Write :=
  (late.1.orElse (fun _ => early.1), late.2.orElse (fun _ => early.2))

/-- Does some registered argument have long form `x` and expect a value
(descriptor-level)?  Exactly when `nv = none` this makes `ReadLongArg`
read out of bounds. -/
def sigHasExpectingLong (x : String) (m : List ArgSig) : Bool :=
  m.any (fun s => decide (s.long = x) && s.expects_value)

/-- Same test on the arguments themselves. -/
def hasExpectingLong (x : String) (args : List Argument) : Bool :=
  args.any (fun a => decide (a.long = x) && a.expects_value)

/-- The per-element overwrites of one long-token update, computed from the
immutable descriptor fields alone. -/
def tokenPlanLong (x : String) (nv : Option String) (m : List ArgSig) : List Write :=
  m.map (fun s =>
    if s.long = x then
      ((if s.expects_value then nv else none), (if s.is_option then some true else none))
    else wNone)

/-- The per-element overwrites of one short-token update.  When the next
token is absent and a value-expecting match is reached, the source returns
early: that element and everything after it receive no overwrite. -/
def tokenPlanShort (c : Char) (nv : Option String) : List ArgSig → List Write
  | [] => []
  | s :: m =>
    if s.short = c then
      if s.expects_value then
        match nv with
        | none => wNone :: m.map (fun _ => wNone)
        | some v => (some v, if s.is_option then some true else none) :: tokenPlanShort c nv m
      else
        (none, if s.is_option then some true else none) :: tokenPlanShort c nv m
    else wNone :: tokenPlanShort c nv m

/-- The accumulated overwrites of a whole scan suffix, computed from the
tokens and the immutable descriptor fields alone (later tokens win). -/
def planAux : List String → List ArgSig → List Write
  | [], m => m.map (fun _ => wNone)
  | t :: rest, m =>
    match classify t with
    | TokKind.skip => planAux rest m
    | TokKind.help => m.map (fun _ => wNone)
    | TokKind.long x => List.zipWith combineW (planAux rest m) (tokenPlanLong x rest.head? m)
    | TokKind.short c => List.zipWith combineW (planAux rest m) (tokenPlanShort c rest.head? m)

/-- Whether a raw token makes the scan display help: `--help`, or a short
token whose character after the dash is `h`. -/
def triggersHelp (t : String) : Bool := decide (classify t = TokKind.help)

/-- The public mutators of class `Argument` (its builder API). -/
inductive ArgOp where
  | opSetShort : Char → ArgOp
  | opSetLong : String → ArgOp
  | opSetValue : String → ArgOp
  | opExpectsValue : ArgOp
  | opRequired : ArgOp
  | opSetGiven : Bool → ArgOp
deriving Repr

/-- Run one public mutator. -/
def applyOp (a : Argument) : ArgOp → Argument
  | ArgOp.opSetShort c => a.SetShort c
  | ArgOp.opSetLong l => a.SetLong l
  | ArgOp.opSetValue v => a.SetValue v
  | ArgOp.opExpectsValue => a.ExpectsValue
  | ArgOp.opRequired => a.Required
  | ArgOp.opSetGiven b => a.SetGiven b

/-- Run a sequence of public mutators. -/
def applyOps (a : Argument) (ops : List ArgOp) : Argument := ops.foldl applyOp a

/-- Concrete descriptors used by the concrete theorems below. -/
def dupA : Argument := (Argument.WithName "a").SetLong "v"

/-- Second argument registered with the same long form as `dupA`. -/
def dupB : Argument := (Argument.WithName "b").SetLong "v"

/-- A value-expecting argument with long form `name`. -/
def nameArg : Argument := ((Argument.WithName "name").SetLong "name").ExpectsValue

/-- A required argument with long form `out` and no value. -/
def outArg : Argument := ((Argument.WithName "out").SetLong "out").Required

/-- A second required argument, used to compare termination effects. -/
def otherArg : Argument := ((Argument.WithName "other").SetLong "other").Required

/-- A value-expecting argument with short form `n`. -/
def numArg : Argument := ((Argument.WithName "num").SetShort 'n').ExpectsValue

/-- A value-bearing argument that has received a value. -/
def vbArg : Argument := (((Argument.WithName "nm").SetLong "nm").ExpectsValue).SetValue "v"

/-- A presence-only option with short form `v`. -/
def verbArg : Argument := (Argument.WithName "verbose").SetShort 'v'

/-- The empty overwrite changes nothing. -/
theorem applyWrite_wNone (a : Argument) : applyWrite wNone a = a := rfl

/-- Overwrites touch only the mutable fields. -/
theorem immut_applyWrite (w : Write) (a : Argument) : immut (applyWrite w a) = immut a := rfl

/-- A list of empty overwrites changes nothing. -/
theorem zip_wNone : ∀ (p : List Write) (l : List Argument), (∀ w ∈ p, w = wNone) →
    l.length ≤ p.length → List.zipWith applyWrite p l = l
  | _, [], _, _ => by simp
  | [], _ :: _, _, hl => by simp at hl
  | w :: p, a :: l, hw, hl => by
    rw [List.zipWith_cons_cons, hw w (List.mem_cons_self w p), applyWrite_wNone,
      zip_wNone p l (fun u hu => hw u (List.mem_cons_of_mem w hu)) (by simpa using hl)]

/-- Variant of `zip_wNone` with the overwrite list built from the signature
list. -/
theorem zip_neutral (l : List Argument) :
    List.zipWith applyWrite ((l.map immut).map (fun _ => wNone)) l = l :=
  zip_wNone _ l (by simp) (by simp)

/-- Variant of `zip_wNone` for a mapped list of empty overwrites. -/
theorem zip_map_wNone (l : List Argument) (f : Argument → Write) (hf : ∀ a, f a = wNone) :
    List.zipWith applyWrite (l.map f) l = l :=
  zip_wNone _ l
    (by
      intro w hw
      rcases List.mem_map.mp hw with ⟨a, -, rfl⟩
      exact hf a)
    (by simp)

/-- When the next raw token exists, the long-form matching loop updates every
matching argument, pointwise. -/
theorem updateLong_some_map (x v : String) : ∀ args : List Argument,
    updateArgsLong x (some v) args = some (args.map (longApply x v))
  | [] => rfl
  | a :: rest => by
    by_cases ha : a.long = x
    · cases he : a.expects_value <;>
        simp [updateArgsLong, ha, he, updateLong_some_map x v rest, longApply]
    · simp [updateArgsLong, ha, updateLong_some_map x v rest, longApply]

/-- With a next token available the long-form matching loop always
completes and realizes the overwrites of `tokenPlanLong`. -/
theorem updateLong_some_zip (x v : String) : ∀ args : List Argument,
    updateArgsLong x (some v) args =
      some (List.zipWith applyWrite (tokenPlanLong x (some v) (args.map immut)) args)
  | [] => rfl
  | a :: rest => by
    have ih := updateLong_some_zip x v rest
    obtain ⟨an, al, as, av, ar, ae, ao, ag⟩ := a
    by_cases ha : al = x
    · cases ae <;> cases ao <;>
        simp [updateArgsLong, ha, ih, tokenPlanLong, immut, applyWrite,
          Argument.SetValue, Argument.SetGiven, wNone]
    · simp [updateArgsLong, ha, ih, tokenPlanLong, immut, applyWrite, wNone]

/-- One step of `sigHasExpectingLong`. -/
theorem sigHas_cons (x : String) (s : ArgSig) (m : List ArgSig) :
    sigHasExpectingLong x (s :: m) =
      ((decide (s.long = x) && s.expects_value) || sigHasExpectingLong x m) := rfl

/-- Without a next token the long-form matching loop reads out of bounds
exactly when some matching argument expects a value; otherwise it realizes
the overwrites of `tokenPlanLong`. -/
theorem updateLong_none_zip (x : String) : ∀ args : List Argument,
    updateArgsLong x none args =
      if sigHasExpectingLong x (args.map immut) then none
      else some (List.zipWith applyWrite (tokenPlanLong x none (args.map immut)) args)
  | [] => by simp [updateArgsLong, sigHasExpectingLong, tokenPlanLong]
  | a :: rest => by
    have ih := updateLong_none_zip x rest
    obtain ⟨an, al, as, av, ar, ae, ao, ag⟩ := a
    by_cases ha : al = x
    · cases ae
      · cases hs : sigHasExpectingLong x (List.map immut rest) <;>
          cases ao <;>
            simp [updateArgsLong, ha, ih, hs, sigHas_cons, tokenPlanLong, immut,
              applyWrite, Argument.SetGiven, wNone]
      · simp [updateArgsLong, ha, sigHas_cons, immut]
    · cases hs : sigHasExpectingLong x (List.map immut rest) <;>
        simp [updateArgsLong, ha, ih, hs, sigHas_cons, tokenPlanLong, immut,
          applyWrite, wNone]

/-- The short-form matching loop always completes and realizes the
overwrites of `tokenPlanShort` (the early return on a missing next token is
the all-empty tail of the plan). -/
theorem updateShort_eq (c : Char) (nv : Option String) : ∀ args : List Argument,
    updateArgsShort c nv args =
      List.zipWith applyWrite (tokenPlanShort c nv (args.map immut)) args
  | [] => rfl
  | a :: rest => by
    have ih := updateShort_eq c nv rest
    obtain ⟨an, al, as, av, ar, ae, ao, ag⟩ := a
    by_cases ha : as = c
    · cases ae
      · cases ao <;>
          simp [updateArgsShort, ha, ih, tokenPlanShort, immut, applyWrite,
            Argument.SetGiven, wNone]
      · cases nv with
        | none =>
          simp [updateArgsShort, ha, tokenPlanShort, immut]
          exact ⟨(applyWrite_wNone _).symm, (zip_map_wNone rest _ (fun a => rfl)).symm⟩
        | some v =>
          cases ao <;>
            simp [updateArgsShort, ha, ih, tokenPlanShort, immut, applyWrite,
              Argument.SetValue, Argument.SetGiven]
    · simp [updateArgsShort, ha, ih, tokenPlanShort, immut, applyWrite, wNone]

/-- Applying overwrites preserves the immutable descriptor fields. -/
theorem map_immut_zip : ∀ (p : List Write) (l : List Argument), p.length = l.length →
    (List.zipWith applyWrite p l).map immut = l.map immut
  | [], [], _ => rfl
  | w :: p, a :: l, h => by
    simp only [List.zipWith_cons_cons, List.map_cons, immut_applyWrite]
    rw [map_immut_zip p l (by simpa using h)]

/-- `tokenPlanShort` produces one overwrite per signature. -/
theorem tokenPlanShort_length (c : Char) : ∀ (nv : Option String) (m : List ArgSig),
    (tokenPlanShort c nv m).length = m.length
  | _, [] => rfl
  | nv, s :: m => by
    by_cases ha : s.short = c
    · cases he : s.expects_value
      · simp [tokenPlanShort, ha, he, tokenPlanShort_length c nv m]
      · cases nv with
        | none => simp [tokenPlanShort, ha, he]
        | some v => simp [tokenPlanShort, ha, he, tokenPlanShort_length c (some v) m]
    · simp [tokenPlanShort, ha, tokenPlanShort_length c nv m]

/-- `planAux` produces one overwrite per signature. -/
theorem planAux_length : ∀ (ts : List String) (m : List ArgSig),
    (planAux ts m).length = m.length
  | [], m => by simp [planAux]
  | t :: rest, m => by
    cases hcl : classify t <;>
      simp [planAux, hcl, planAux_length rest m, tokenPlanShort_length, tokenPlanLong]

/-- Composing overwrites pointwise matches applying them in sequence. -/
theorem applyWrite_combineW (w u : Write) (a : Argument) :
    applyWrite w (applyWrite u a) = applyWrite (combineW w u) a := by
  obtain ⟨wv, wg⟩ := w
  obtain ⟨uv, ug⟩ := u
  cases wv <;> cases wg <;> simp [applyWrite, combineW, Option.orElse]

/-- Applying two overwrite lists in sequence equals applying their
composition. -/
theorem zip_zip : ∀ (p q : List Write) (l : List Argument),
    List.zipWith applyWrite p (List.zipWith applyWrite q l) =
      List.zipWith applyWrite (List.zipWith combineW p q) l
  | [], _, _ => by simp
  | _ :: _, [], _ => by simp
  | _ :: _, _ :: _, [] => by simp
  | w :: p, u :: q, a :: l => by
    simp only [List.zipWith_cons_cons, applyWrite_combineW]
    rw [zip_zip p q l]

/-- An overwrite is idempotent. -/
theorem applyWrite_absorb (w : Write) (a : Argument) :
    applyWrite w (applyWrite w a) = applyWrite w a := by
  obtain ⟨wv, wg⟩ := w
  cases wv <;> cases wg <;> simp [applyWrite]

/-- An overwrite list is idempotent. -/
theorem zip_absorb : ∀ (p : List Write) (l : List Argument),
    List.zipWith applyWrite p (List.zipWith applyWrite p l) = List.zipWith applyWrite p l
  | [], _ => by simp
  | _ :: _, [] => by simp
  | w :: p, a :: l => by
    simp only [List.zipWith_cons_cons, applyWrite_absorb]
    rw [zip_absorb p l]

/-- `tokenPlanLong` produces one overwrite per signature. -/
theorem tokenPlanLong_length (x : String) (nv : Option String) (m : List ArgSig) :
    (tokenPlanLong x nv m).length = m.length := by simp [tokenPlanLong]

/-- The long-form update preserves the immutable descriptor fields. -/
theorem map_immut_longApply (x v : String) (args : List Argument) :
    (args.map (longApply x v)).map immut = args.map immut := by
  have h := (updateLong_some_map x v args).symm.trans (updateLong_some_zip x v args)
  rw [Option.some.injEq] at h
  rw [h]
  exact map_immut_zip _ _ (by simp [tokenPlanLong])

/-- The short-form update preserves the immutable descriptor fields. -/
theorem map_immut_updateShort (c : Char) (nv : Option String) (args : List Argument) :
    (updateArgsShort c nv args).map immut = args.map immut := by
  rw [updateShort_eq]
  exact map_immut_zip _ _ (by rw [tokenPlanShort_length]; simp)

/-- Whether a value-expecting long match exists depends only on the
immutable descriptor fields. -/
theorem hasExpectingLong_eq (x : String) (args : List Argument) :
    hasExpectingLong x args = sigHasExpectingLong x (args.map immut) := by
  induction args with
  | nil => rfl
  | cons a rest ih =>
    simp only [hasExpectingLong, List.any_cons, List.map_cons, sigHas_cons, immut]
    rw [← ih]
    rfl

/-- Core replay lemma: if a scan completes normally, then scanning the same
tokens from any argument list with the same immutable descriptor fields
also completes normally, and the result is the accumulated overwrites of
the token list applied to the starting arguments. -/
theorem scan_replay : ∀ (ts : List String) (args args2 z : List Argument),
    args.map immut = args2.map immut →
    scanAux ts args = ScanResult.ok z →
    scanAux ts args2 =
      ScanResult.ok (List.zipWith applyWrite (planAux ts (args2.map immut)) args2)
  | [], args, args2, z, _, _ => by
    simp only [scanAux, planAux]
    rw [zip_neutral args2]
  | t :: rest, args, args2, z, hM, h => by
    cases hcl : classify t with
    | skip =>
      simp only [scanAux, planAux, hcl] at h ⊢
      exact scan_replay rest args args2 z hM h
    | help =>
      simp only [scanAux, hcl] at h
      exact absurd h (by simp)
    | long x =>
      cases hnv : rest.head? with
      | some v =>
        simp only [scanAux, planAux, hcl, hnv] at h ⊢
        rw [updateLong_some_zip x v args] at h
        rw [updateLong_some_zip x v args2]
        simp only at h ⊢
        have hlen1 : (tokenPlanLong x (some v) (args.map immut)).length = args.length := by
          rw [tokenPlanLong_length]; simp
        have hlen2 : (tokenPlanLong x (some v) (args2.map immut)).length = args2.length := by
          rw [tokenPlanLong_length]; simp
        have hM1 := map_immut_zip _ args hlen1
        have hM2 := map_immut_zip _ args2 hlen2
        have ih := scan_replay rest
          (List.zipWith applyWrite (tokenPlanLong x (some v) (args.map immut)) args)
          (List.zipWith applyWrite (tokenPlanLong x (some v) (args2.map immut)) args2) z
          (by rw [hM1, hM2, hM]) h
        rw [hM2] at ih
        rw [ih, zip_zip]
      | none =>
        cases hs : sigHasExpectingLong x (args.map immut) with
        | true =>
          simp only [scanAux, hcl, hnv] at h
          rw [updateLong_none_zip x args, if_pos hs] at h
          exact absurd h (by simp)
        | false =>
          simp only [scanAux, planAux, hcl, hnv] at h ⊢
          rw [updateLong_none_zip x args, if_neg (by simp [hs])] at h
          rw [updateLong_none_zip x args2, if_neg (by rw [← hM]; simp [hs])]
          simp only at h ⊢
          have hlen1 : (tokenPlanLong x none (args.map immut)).length = args.length := by
            rw [tokenPlanLong_length]; simp
          have hlen2 : (tokenPlanLong x none (args2.map immut)).length = args2.length := by
            rw [tokenPlanLong_length]; simp
          have hM1 := map_immut_zip _ args hlen1
          have hM2 := map_immut_zip _ args2 hlen2
          have ih := scan_replay rest
            (List.zipWith applyWrite (tokenPlanLong x none (args.map immut)) args)
            (List.zipWith applyWrite (tokenPlanLong x none (args2.map immut)) args2) z
            (by rw [hM1, hM2, hM]) h
          rw [hM2] at ih
          rw [ih, zip_zip]
    | short c =>
      simp only [scanAux, planAux, hcl] at h ⊢
      rw [updateShort_eq c rest.head? args] at h
      rw [updateShort_eq c rest.head? args2]
      have hlen1 : (tokenPlanShort c rest.head? (args.map immut)).length = args.length := by
        rw [tokenPlanShort_length]; simp
      have hlen2 : (tokenPlanShort c rest.head? (args2.map immut)).length = args2.length := by
        rw [tokenPlanShort_length]; simp
      have hM1 := map_immut_zip _ args hlen1
      have hM2 := map_immut_zip _ args2 hlen2
      have ih := scan_replay rest
        (List.zipWith applyWrite (tokenPlanShort c rest.head? (args.map immut)) args)
        (List.zipWith applyWrite (tokenPlanShort c rest.head? (args2.map immut)) args2) z
        (by rw [hM1, hM2, hM]) h
      rw [hM2] at ih
      rw [ih, zip_zip]

/-- When the next token is missing and the first short-form match expects a
value, the short-form matching loop leaves the arguments unchanged. -/
theorem updateShort_none_firstExpecting (c : Char) : ∀ (args : List Argument) (a : Argument),
    args.find? (fun b => b.short == c) = some a → a.expects_value = true →
    updateArgsShort c none args = args
  | [], a, h, _ => by simp at h
  | b :: rest, a, h, he => by
    by_cases hb : b.short = c
    · have hba : b = a := by
        rw [List.find?_cons_of_pos _ (by simp [hb])] at h
        exact Option.some.inj h
      rw [updateArgsShort, if_pos hb, if_pos (hba ▸ he)]
    · rw [List.find?_cons_of_neg _ (by simp [hb])] at h
      rw [updateArgsShort, if_neg hb, updateShort_none_firstExpecting c rest a h he]

/-- A token stream containing a help token always reaches it: every other
token either skips or completes its update and the scan moves on by one. -/
theorem scan_help_mem : ∀ (ts : List String) (args : List Argument),
    ("--help" ∈ ts ∨ "-h" ∈ ts) → scanAux ts args = ScanResult.help
  | [], _, h => by simp at h
  | t :: rest, args, h => by
    by_cases ht : t = "--help"
    · subst ht
      simp [scanAux, (by decide : classify "--help" = TokKind.help)]
    · by_cases ht2 : t = "-h"
      · subst ht2
        simp [scanAux, (by decide : classify "-h" = TokKind.help)]
      · have hmem : "--help" ∈ rest ∨ "-h" ∈ rest := by
          rcases h with h | h
          · rcases List.mem_cons.mp h with h | h
            · exact absurd h.symm ht
            · exact Or.inl h
          · rcases List.mem_cons.mp h with h | h
            · exact absurd h.symm ht2
            · exact Or.inr h
        cases hcl : classify t with
        | skip =>
          simp only [scanAux, hcl]
          exact scan_help_mem rest args hmem
        | help => simp [scanAux, hcl]
        | long x =>
          obtain ⟨v, hv⟩ : ∃ v, rest.head? = some v := by
            cases rest with
            | nil => simp at hmem
            | cons u us => exact ⟨u, rfl⟩
          simp only [scanAux, hcl, hv, updateLong_some_map]
          exact scan_help_mem rest _ hmem
        | short c =>
          simp only [scanAux, hcl]
          exact scan_help_mem rest _ hmem

/-- When the last token is a long-form token matching a value-expecting
argument and no earlier token triggers help, the scan always reaches the
last token and performs the out-of-bounds read there. -/
theorem scan_oob : ∀ (front : List String) (t x : String) (args : List Argument),
    (∀ s ∈ front, classify s ≠ TokKind.help) →
    classify t = TokKind.long x →
    hasExpectingLong x args = true →
    scanAux (front ++ [t]) args = ScanResult.oobFault
  | [], t, x, args, _, ht, hm => by
    have hs : sigHasExpectingLong x (args.map immut) = true := by
      rw [← hasExpectingLong_eq]; exact hm
    simp only [List.nil_append, scanAux, ht, List.head?_nil]
    rw [updateLong_none_zip x args, if_pos hs]
  | s :: front, t, x, args, hfr, ht, hm => by
    have hs := hfr s (List.mem_cons_self s front)
    have hfr2 : ∀ u ∈ front, classify u ≠ TokKind.help :=
      fun u hu => hfr u (List.mem_cons_of_mem s hu)
    cases hcl : classify s with
    | help => exact absurd hcl hs
    | skip =>
      simp only [List.cons_append, List.append_eq, scanAux, hcl]
      exact scan_oob front t x args hfr2 ht hm
    | long y =>
      obtain ⟨v, hv⟩ : ∃ v, (front ++ [t]).head? = some v := by
        cases front with
        | nil => exact ⟨t, rfl⟩
        | cons u us => exact ⟨u, rfl⟩
      simp only [List.cons_append, List.append_eq, scanAux, hcl, hv, updateLong_some_map]
      apply scan_oob front t x _ hfr2 ht
      rw [hasExpectingLong_eq, map_immut_longApply, ← hasExpectingLong_eq]
      exact hm
    | short c =>
      simp only [List.cons_append, List.append_eq, scanAux, hcl]
      apply scan_oob front t x _ hfr2 ht
      rw [hasExpectingLong_eq, map_immut_updateShort, ← hasExpectingLong_eq]
      exact hm

/-- One public mutator preserves the option/value-expectation invariant. -/
theorem applyOp_inv (a : Argument) (op : ArgOp)
    (h : a.expects_value = true → a.is_option = false) :
    (applyOp a op).expects_value = true → (applyOp a op).is_option = false := by
  cases op <;>
    simp only [applyOp, Argument.SetShort, Argument.SetLong, Argument.SetValue,
      Argument.ExpectsValue, Argument.Required, Argument.SetGiven] <;>
    first
      | exact h
      | exact fun _ => trivial

/-- Any sequence of public mutators preserves the invariant. -/
theorem applyOps_inv : ∀ (ops : List ArgOp) (a : Argument),
    (a.expects_value = true → a.is_option = false) →
    ((applyOps a ops).expects_value = true → (applyOps a ops).is_option = false)
  | [], _, h => h
  | op :: ops, a, h => applyOps_inv ops (applyOp a op) (applyOp_inv a op h)

/-- Once the value expectation is set and the option flag cleared, no public
mutator restores either. -/
theorem applyOps_locked : ∀ (ops : List ArgOp) (a : Argument),
    a.expects_value = true → a.is_option = false →
    (applyOps a ops).expects_value = true ∧ (applyOps a ops).is_option = false
  | [], _, he, ho => ⟨he, ho⟩
  | op :: ops, a, he, ho => by
    have hstep : (applyOp a op).expects_value = true ∧ (applyOp a op).is_option = false := by
      cases op <;>
        simp [applyOp, Argument.SetShort, Argument.SetLong, Argument.SetValue,
          Argument.ExpectsValue, Argument.Required, Argument.SetGiven, he, ho]
    exact applyOps_locked ops (applyOp a op) hstep.1 hstep.2

/-- Claim C1 counterexample: with two registered arguments sharing long form
`v`, the token `--v` updates BOTH of them — the second-registered argument
`dupB` starts with `is_given = false` and ends with `is_given = true`, so it
does not keep its given-flag unchanged as the claim states.  The matching
loop of `ReadLongArg` has no break. -/
theorem ccap_c1_counterexample :
    Parse ["--v"] [dupA, dupB] =
      ParseResult.ok [dupA.SetGiven true, dupB.SetGiven true] ∧
    dupB.is_given = false := by decide

/-- Claim C1 (amended): for a token classified as long form `x` with a
following raw token `v`, the scan updates EVERY registered argument whose
long form equals `x` (the pointwise map `longApply x v`), later registered
ones included, and then continues with the next token. -/
theorem ccap_c1_all_matches_updated (t : String) (rest : List String)
    (args : List Argument) (x v : String)
    (ht : classify t = TokKind.long x) (hv : rest.head? = some v) :
    scanAux (t :: rest) args = scanAux rest (args.map (longApply x v)) := by
  simp only [scanAux, ht, hv, updateLong_some_map]

/-- Witness for the amended C1 at a concrete input. -/
theorem ccap_c1_all_matches_updated_witness :
    scanAux ["--v", "x"] [dupA, dupB] =
      scanAux ["x"] ([dupA, dupB].map (longApply "v" "x")) :=
  ccap_c1_all_matches_updated "--v" ["x"] [dupA, dupB] "v" "x" (by decide) rfl

/-- Claim C2 counterexample: the token list `["-h", "--name"]` has the
long-form token `--name` as its last token, matching the registered
value-expecting argument `nameArg`, yet parse reaches the terminal help
display at the earlier `-h` token and the out-of-bounds branch is never
taken — refuting the claim quantified over every such token list. -/
theorem ccap_c2_counterexample :
    Parse ["-h", "--name"] [nameArg] = ParseResult.help ∧
    Parse ["-h", "--name"] [nameArg] ≠ ParseResult.oobFault := by decide

/-- Claim C2 (amended): for every token list whose last token is a long-form
token `--x` matching a registered value-expecting argument, and in which no
earlier token triggers the help display, the scan reaches the last token and
consumes index `i+1` with no bounds check, reaching the out-of-bounds error
branch. -/
theorem ccap_c2_oob_last_token (front : List String) (t x : String) (args : List Argument)
    (hfront : ∀ s ∈ front, classify s ≠ TokKind.help)
    (ht : classify t = TokKind.long x)
    (hm : hasExpectingLong x args = true) :
    Parse (front ++ [t]) args = ParseResult.oobFault := by
  unfold Parse
  rw [scan_oob front t x args hfront ht hm]

/-- Witness for the amended C2 at a concrete input. -/
theorem ccap_c2_oob_last_token_witness :
    Parse ["--name"] [nameArg] = ParseResult.oobFault :=
  ccap_c2_oob_last_token [] "--name" "name" [nameArg] (by simp) (by decide) (by decide)

/-- Claim C3: after a normally completed scan, if some registered argument
is required and has an absent value, parse terminates with the first such
argument: exactly one terminate call, identifying that argument, which is
indeed required and value-less. -/
theorem ccap_c3_required_terminates (tokens : List String) (args args1 : List Argument)
    (a : Argument)
    (hscan : scanAux tokens args = ScanResult.ok args1)
    (hfind : args1.find? missingRequired = some a) :
    Parse tokens args = ParseResult.terminated a ∧
    terminateCalls (Parse tokens args) = [a] ∧
    a.required = true ∧ (Argument.GetValue a).isNone = true := by
  have hp : Parse tokens args = ParseResult.terminated a := by
    simp only [Parse, hscan, hfind]
  have hmr := List.find?_some hfind
  rw [missingRequired, Bool.and_eq_true] at hmr
  exact ⟨hp, by rw [hp]; rfl, hmr.1, hmr.2⟩

/-- Witness for C3: a required argument with no matching token (empty token
list) triggers exactly one termination call identifying it. -/
theorem ccap_c3_required_terminates_witness :
    Parse [] [outArg] = ParseResult.terminated outArg ∧
    terminateCalls (Parse [] [outArg]) = [outArg] ∧
    outArg.required = true ∧ (Argument.GetValue outArg).isNone = true :=
  ccap_c3_required_terminates [] [outArg] [outArg] outArg rfl (by decide)

/-- Claim C4: a token list containing `--help` or `-h` always ends in the
terminal help display, whatever the registered arguments: the scan never
reaches an outcome in which later tokens or the required-argument
validation could act (the result is neither `ok` nor `terminated` nor
`oobFault`). -/
theorem ccap_c4_help_terminal (tokens : List String) (args : List Argument)
    (h : "--help" ∈ tokens ∨ "-h" ∈ tokens) :
    Parse tokens args = ParseResult.help := by
  unfold Parse
  rw [scan_help_mem tokens args h]

/-- Witness for C4: `-h` triggers help even though a required argument
(`outArg`) has no value — validation is bypassed. -/
theorem ccap_c4_help_terminal_witness :
    Parse ["-h"] [outArg] = ParseResult.help :=
  ccap_c4_help_terminal ["-h"] [outArg] (Or.inr (by decide))

/-- Claim C5: when token `i` is a long-form token that consumes token `i+1`
as a value, the outer scan index still advances by exactly one: the scan
continues at token `i+1` itself (here the head of the remaining suffix), so
a consumed value token is independently re-examined as an argument token
(and a value starting with a dash is dispatched as a long/short/help token
by `classify` on the next iteration). -/
theorem ccap_c5_value_token_reexamined (t t2 : String) (rest : List String)
    (args : List Argument) (x : String)
    (ht : classify t = TokKind.long x) :
    scanAux (t :: t2 :: rest) args = scanAux (t2 :: rest) (args.map (longApply x t2)) := by
  simp only [scanAux, ht, List.head?_cons, updateLong_some_map]

/-- Witness for C5: `-v` is consumed as the value of `--name` and is then
re-examined as a short option token on the next iteration. -/
theorem ccap_c5_value_token_reexamined_witness :
    scanAux ["--name", "-v"] [nameArg, verbArg] =
      scanAux ["-v"] ([nameArg, verbArg].map (longApply "name" "-v")) :=
  ccap_c5_value_token_reexamined "--name" "-v" [] [nameArg, verbArg] "name" (by decide)

/-- Claim C6: when the last token is a short-form token whose first matching
registered argument expects a value, the short-form path bounds-checks the
missing next token and silently aborts: the scan completes normally with
the argument list fully unchanged (no value, no given-flag set) — unlike
the long-form path, which performs no such check (see C2). -/
theorem ccap_c6_short_bounds_check (t : String) (c : Char) (args : List Argument)
    (a : Argument)
    (ht : classify t = TokKind.short c)
    (hfind : args.find? (fun b => b.short == c) = some a)
    (hexp : a.expects_value = true) :
    scanAux [t] args = ScanResult.ok args := by
  simp only [scanAux, ht, List.head?_nil]
  rw [updateShort_none_firstExpecting c args a hfind hexp]

/-- Witness for C6 at a concrete input. -/
theorem ccap_c6_short_bounds_check_witness :
    scanAux ["-n"] [numArg] = ScanResult.ok [numArg] :=
  ccap_c6_short_bounds_check "-n" 'n' [numArg] numArg (by decide) (by decide) (by decide)

/-- Claim C7 (code bug): under the `Exception` policy, `Terminate` executes
`throw "Exception"` — a fixed literal.  Evaluated at the failing input (a
required argument `out` missing after parsing an empty token list, which
does invoke terminate), the raised value is the constant string
`"Exception"`: it is identical for distinct offending arguments, so a host
catching it cannot determine which required argument was missing,
contradicting the claim that the error carries the argument's identity. -/
theorem ccap_c7_exception_opaque :
    Parse [] [outArg] = ParseResult.terminated outArg ∧
    Terminate TerminationType.exception outArg = TerminateEffect.throwString "Exception" ∧
    Terminate TerminationType.exception otherArg = TerminateEffect.throwString "Exception" ∧
    Terminate TerminationType.exception outArg = Terminate TerminationType.exception otherArg ∧
    outArg ≠ otherArg := by decide

/-- Claim C8: `IsGiven` answers at the first argument whose name matches:
it returns true exactly when that first match is an option with its given
flag set; it returns false when no argument with the name is registered,
and (second part) false whenever the matched argument is value-bearing —
whatever value it received — given the API invariant that value-bearing
arguments are not options. -/
theorem ccap_c8_isGiven_spec (args : List Argument) (n : String) :
    (argsIsGiven n args = true ↔
      ∃ a, args.find? (fun b => b.name == n) = some a ∧
        a.is_option = true ∧ a.is_given = true) ∧
    (∀ a, (∀ b ∈ args, b.expects_value = true → b.is_option = false) →
      args.find? (fun b => b.name == n) = some a → a.expects_value = true →
      argsIsGiven n args = false) := by
  have hiff : argsIsGiven n args = true ↔
      ∃ a, args.find? (fun b => b.name == n) = some a ∧
        a.is_option = true ∧ a.is_given = true := by
    induction args with
    | nil => simp [argsIsGiven]
    | cons b rest ih =>
      by_cases hb : b.name = n
      · rw [List.find?_cons_of_pos _ (by simp [hb])]
        simp only [argsIsGiven, if_pos hb, Bool.and_eq_true]
        constructor
        · rintro ⟨h1, h2⟩
          exact ⟨b, rfl, h1, h2⟩
        · rintro ⟨a, ha, h1, h2⟩
          obtain rfl := Option.some.inj ha
          exact ⟨h1, h2⟩
      · rw [List.find?_cons_of_neg _ (by simp [hb])]
        simp only [argsIsGiven, if_neg hb]
        exact ih
  refine ⟨hiff, ?_⟩
  intro a hinv hfind hexp
  cases hg : argsIsGiven n args with
  | false => rfl
  | true =>
    exfalso
    obtain ⟨b, hb, hbo, _⟩ := hiff.mp hg
    rw [hfind] at hb
    obtain rfl := Option.some.inj hb
    have hopt := hinv a (List.mem_of_find?_eq_some hfind) hexp
    rw [hopt] at hbo
    exact Bool.noConfusion hbo

/-- Witness for C8 at a concrete input: a value-bearing argument that
received a value is still reported not given. -/
theorem ccap_c8_isGiven_spec_witness :
    argsIsGiven "nm" [vbArg] = false :=
  (ccap_c8_isGiven_spec [vbArg] "nm").2 vbArg (by decide) (by decide) (by decide)

/-- Claim C9: over every sequence of public mutators, `expects_value = true`
implies `is_option = false`; a newly constructed argument is an option and
does not expect a value; `ExpectsValue` sets the expectation and clears the
option flag simultaneously; and once `ExpectsValue` has been called no
sequence of public mutators restores the option flag or clears the
expectation (irreversibility). -/
theorem ccap_c9_expects_not_option (n : String) (ops ops1 ops2 : List ArgOp) :
    ((applyOps (Argument.WithName n) ops).expects_value = true →
      (applyOps (Argument.WithName n) ops).is_option = false) ∧
    (Argument.WithName n).is_option = true ∧
    (Argument.WithName n).expects_value = false ∧
    (∀ a : Argument, (a.ExpectsValue).expects_value = true ∧
      (a.ExpectsValue).is_option = false) ∧
    ((applyOps ((applyOps (Argument.WithName n) ops1).ExpectsValue) ops2).expects_value = true ∧
      (applyOps ((applyOps (Argument.WithName n) ops1).ExpectsValue) ops2).is_option = false) := by
  refine ⟨?_, rfl, rfl, fun a => ⟨rfl, rfl⟩, ?_⟩
  · exact applyOps_inv ops (Argument.WithName n)
      (by intro h; simp [Argument.WithName] at h)
  · exact applyOps_locked ops2 _ rfl rfl

/-- Witness for C9 at a concrete input. -/
theorem ccap_c9_expects_not_option_witness :
    (applyOps (Argument.WithName "x") [ArgOp.opExpectsValue]).is_option = false ∧
    (Argument.WithName "x").is_option = true :=
  ⟨(ccap_c9_expects_not_option "x" [ArgOp.opExpectsValue] [] []).1 (by decide),
   (ccap_c9_expects_not_option "x" [ArgOp.opExpectsValue] [] []).2.1⟩

/-- Claim C10: parse is idempotent whenever it completes normally: if a
first parse returns `ok args2`, a second parse starting from `args2`
performs the same matching (the scan's control flow and overwrites depend
only on the tokens and the immutable descriptor fields, which the scan
preserves), returns normally, and leaves every argument's value and
given-flag identical. -/
theorem ccap_c10_parse_idempotent (tokens : List String) (args args2 : List Argument)
    (h : Parse tokens args = ParseResult.ok args2) :
    Parse tokens args2 = ParseResult.ok args2 := by
  unfold Parse at h ⊢
  cases hs : scanAux tokens args with
  | help => simp [hs] at h
  | oobFault => simp [hs] at h
  | ok z =>
    simp only [hs] at h
    cases hf : z.find? missingRequired with
    | some b => simp [hf] at h
    | none =>
      simp only [hf] at h
      have hz : z = args2 := by simpa using h
      subst hz
      have hrep := scan_replay tokens args args z rfl hs
      rw [hs] at hrep
      have hz2 : z = List.zipWith applyWrite (planAux tokens (args.map immut)) args := by
        injection hrep
      have hMz : z.map immut = args.map immut := by
        rw [hz2]
        exact map_immut_zip _ _ (by rw [planAux_length]; simp)
      have hrep2 := scan_replay tokens args z z hMz.symm hs
      rw [hMz] at hrep2
      have habs : List.zipWith applyWrite (planAux tokens (args.map immut)) z = z := by
        rw [hz2]
        exact zip_absorb _ args
      rw [hrep2, habs]
      simp [hf]

/-- Witness for C10 at a concrete input. -/
theorem ccap_c10_parse_idempotent_witness :
    Parse ["--name", "Alice"] [nameArg] = ParseResult.ok [nameArg.SetValue "Alice"] ∧
    Parse ["--name", "Alice"] [nameArg.SetValue "Alice"] =
      ParseResult.ok [nameArg.SetValue "Alice"] :=
  ⟨by decide,
   ccap_c10_parse_idempotent ["--name", "Alice"] [nameArg] [nameArg.SetValue "Alice"]
     (by decide)⟩

